import Mathlib

/-!
Verification development for the disk-analyzer scanner core
(`src/src-tauri/src/lib.rs`).

The Rust core walks a directory subtree, aggregates per-node sizes
bottom-up, keeps shared counters (files, bytes, errors) and occasionally
emits progress events.  We embed it shallowly:

* the filesystem seen by one scan is an inductive `Entry` tree;
  `Entry.badEntry` is an entry whose `fs::metadata` call fails,
  `Entry.badDir` a directory whose metadata succeeds but whose
  `fs::read_dir` call fails;
* the shared mutex-guarded counters become an explicit `ScanState`
  threaded through an in-order traversal.  The Rust code scans children
  with a rayon `par_iter`, but the counters are only ever increased and
  the children vector preserves input order, so the sequential traversal
  computes the same tree and the same final counter values;
* wall-clock time appears only in the 50 ms progress throttle
  (`last_progress.elapsed() > 50`); we abstract that test as an oracle
  `o : Nat → Bool` consulted on the running file count, which affects
  only the recorded event list, never the tree or the counters;
* `u64`/`usize` arithmetic is modelled on `Nat` (no overflow concerns in
  any claim considered here).
-/

/-- A filesystem entry as one scan observes it.  Mirrors what the Rust
code can encounter on disk: a regular file with an OS-reported length, an
entry whose metadata read fails, a directory whose listing fails, and a
readable directory with its child entries in enumeration order. -/
inductive Entry where
  | file (name : String) (size : Nat)
  | badEntry (name : String)
  | badDir (name : String)
  | dir (name : String) (entries : List Entry)

/-- Final path component of an entry (what `path.file_name()` returns for
the paths the scanner builds). -/
def Entry.name : Entry → String
  | .file n _ => n
  | .badEntry n => n
  | .badDir n => n
  | .dir n _ => n

/-- The Rust `FileInfo` result-tree node (`name`, `path`, `size`,
`is_dir`, `children`). -/
inductive FileInfo where
  | mk (name : String) (path : String) (size : Nat) (is_dir : Bool)
      (children : List FileInfo)

def FileInfo.name : FileInfo → String
  | .mk n _ _ _ _ => n

def FileInfo.path : FileInfo → String
  | .mk _ p _ _ _ => p

def FileInfo.size : FileInfo → Nat
  | .mk _ _ sz _ _ => sz

def FileInfo.is_dir : FileInfo → Bool
  | .mk _ _ _ d _ => d

def FileInfo.children : FileInfo → List FileInfo
  | .mk _ _ _ _ cs => cs

/-- The Rust `ScanProgress` payload of a `scan-progress` event. -/
structure ScanProgress where
  current_path : String
  files_processed : Nat
  total_size_so_far : Nat
  estimated_total : Option Nat

/-- The shared mutable state of one scan: the three mutex-guarded
counters (`total_files`, `total_size`, `error_count`) plus the list of
progress events emitted so far (standing in for `app_handle.emit`). -/
structure ScanState where
  totalFiles : Nat
  totalSize : Nat
  errorCount : Nat
  events : List ScanProgress

/-- Counter state at the start of `scan_directory_impl`: all counters
zero, no events emitted. -/
def initState : ScanState := ⟨0, 0, 0, []⟩

/-- The Rust `ScanResult`: root node plus final counter snapshot. -/
structure ScanResult where
  root : FileInfo
  total_size : Nat
  file_count : Nat
  error_count : Nat

/-- The comparator `|a, b| b.size.cmp(&a.size)` used by
`sorted_children.sort_by`: `a` sorts no later than `b` when `a`'s size is
at least `b`'s. -/
def sizeGE (a b : FileInfo) : Prop := b.size ≤ a.size

instance : DecidableRel sizeGE := fun a b => Nat.decLe b.size a.size

/-- Path of a child entry: `read_dir`'s `DirEntry::path()` joins the
directory's path with the child's file name. -/
def childPath (p name : String) : String := p ++ "/" ++ name

mutual
/-- Shallow embedding of `scan_directory_parallel` (lib.rs lines
75-167).  Returns `none` for the Rust `Err` case (metadata unreadable,
after bumping the error counter); otherwise `some` node.  The directory
case lists children (first 500 entries, via `scanList`'s budget), scans
them, sums all scanned children's sizes into `dir_size`, then sorts the
children by size descending (Rust's stable `sort_by`, embedded as a
stable insertion sort) and truncates to the top 50. -/
def scanEntry (o : Nat → Bool) (path : String) (e : Entry) (s : ScanState) :
    Option FileInfo × ScanState :=
  match e with
  | .badEntry _ => (none, { s with errorCount := s.errorCount + 1 })
  | .file name sz =>
      let files := s.totalFiles + 1
      let bytes := s.totalSize + sz
      let events :=
        if o files then s.events ++ [⟨path, files, bytes, none⟩] else s.events
      (some (.mk name path sz false []),
       { totalFiles := files, totalSize := bytes, errorCount := s.errorCount,
         events := events })
  | .badDir name =>
      (some (.mk name path 0 true []), { s with errorCount := s.errorCount + 1 })
  | .dir name entries =>
      let r := scanList o path 500 entries s
      let dirSize := (r.1.map FileInfo.size).sum
      let sorted := r.1.insertionSort sizeGE
      (some (.mk name path dirSize true (sorted.take 50)), r.2)

/-- The loop body of the directory case: scan the child entries in
enumeration order, keeping the `Ok` results (`filter_map(... .ok())`).
The `Nat` budget embeds the `take(500)` on the entry iterator: it is
consumed once per listed entry, and enumeration stops when it reaches
zero. -/
def scanList (o : Nat → Bool) (dirPath : String) : Nat → List Entry → ScanState →
    List FileInfo × ScanState
  | _, [], s => ([], s)
  | 0, _ :: _, s => ([], s)
  | b + 1, e :: rest, s =>
      let r1 := scanEntry o (childPath dirPath e.name) e s
      let r2 := scanList o dirPath b rest r1.2
      (match r1.1 with | some f => f :: r2.1 | none => r2.1, r2.2)
end

/-- Shallow embedding of `scan_directory_impl` (lib.rs lines 46-73).
`fs = none` models a root path that fails the `exists()` check; then the
call errors out before any counter is touched or any event emitted.
Otherwise the scan runs from zeroed counters; an `Err` from the root
`scan_directory_parallel` call propagates (the `?` on line 61). -/
def scan_directory_impl (o : Nat → Bool) (rootPath : String) (fs : Option Entry) :
    Except String ScanResult × ScanState :=
  match fs with
  | none => (.error "Path does not exist", initState)
  | some e =>
      match scanEntry o rootPath e initState with
      | (none, s) => (.error "Cannot read metadata", s)
      | (some root, s) =>
          (.ok ⟨root, s.totalSize, s.totalFiles, s.errorCount⟩, s)

/-- An oracle under which the 50 ms progress throttle never fires. -/
def noEmit : Nat → Bool := fun _ => false

/-- Entries that are regular files (metadata readable, `is_file()`). -/
def isFileB : Entry → Bool
  | .file _ _ => true
  | _ => false

/-- Roots on which `fs::metadata` succeeds, so the root
`scan_directory_parallel` call does not return `Err`. -/
def rootStatOk : Entry → Bool
  | .badEntry _ => false
  | _ => true

mutual
/-- Spec-side notion: a tree with no unreadable entries and no directory
holding more than 500 immediate entries, so no error path and no
truncation is ever taken while scanning it. -/
def clean : Entry → Bool
  | .file _ _ => true
  | .badEntry _ => false
  | .badDir _ => false
  | .dir _ es => decide (es.length ≤ 500) && cleanL es

def cleanL : List Entry → Bool
  | [] => true
  | e :: r => clean e && cleanL r
end

mutual
/-- Spec-side notion: the exact number of files in the tree. -/
def specFileCount : Entry → Nat
  | .file _ _ => 1
  | .badEntry _ => 0
  | .badDir _ => 0
  | .dir _ es => specFileCountL es

def specFileCountL : List Entry → Nat
  | [] => 0
  | e :: r => specFileCount e + specFileCountL r
end

mutual
/-- Spec-side notion: the exact sum of all file sizes in the tree. -/
def specTotalBytes : Entry → Nat
  | .file _ sz => sz
  | .badEntry _ => 0
  | .badDir _ => 0
  | .dir _ es => specTotalBytesL es

def specTotalBytesL : List Entry → Nat
  | [] => 0
  | e :: r => specTotalBytes e + specTotalBytesL r
end

/-- Budget-free version of `scanList`: scans every entry of the list.
`scanList` with budget `b` coincides with `scanListAll` on `l.take b`
(`scanList_eq_take`), which is exactly the Rust `take(500)`. -/
def scanListAll (o : Nat → Bool) (dirPath : String) :
    List Entry → ScanState → List FileInfo × ScanState
  | [], s => ([], s)
  | e :: rest, s =>
      let r1 := scanEntry o (childPath dirPath e.name) e s
      let r2 := scanListAll o dirPath rest r1.2
      (match r1.1 with | some f => f :: r2.1 | none => r2.1, r2.2)

/-- Size of an optional node; 0 for the `Err` case. -/
def optSize : Option FileInfo → Nat
  | none => 0
  | some t => t.size

/-- Scanning with an entry budget is scanning the budget-length front of
the listing: the embedded `take(500)`. -/
theorem scanList_eq_take (o : Nat → Bool) (p : String) :
    ∀ (l : List Entry) (b : Nat) (s : ScanState),
      scanList o p b l s = scanListAll o p (l.take b) s := by
  intro l
  induction l with
  | nil => intro b s; cases b <;> simp [scanList, scanListAll]
  | cons e r ih =>
      intro b s
      cases b with
      | zero => simp [scanList, scanListAll]
      | succ b => simp [scanList, scanListAll, ih]

/-- Strong induction over `Entry`, recursing into directory listings. -/
theorem entryMemInd {P : Entry → Prop}
    (hfile : ∀ n sz, P (.file n sz))
    (hbadE : ∀ n, P (.badEntry n))
    (hbadD : ∀ n, P (.badDir n))
    (hdir : ∀ n es, (∀ e ∈ es, P e) → P (.dir n es)) :
    ∀ e, P e
  | .file n sz => hfile n sz
  | .badEntry n => hbadE n
  | .badDir n => hbadD n
  | .dir n es =>
      hdir n es (fun e he =>
        have : sizeOf e < sizeOf (Entry.dir n es) := by
          have h1 := List.sizeOf_lt_of_mem he
          simp only [Entry.dir.sizeOf_spec]
          omega
        entryMemInd hfile hbadE hbadD hdir e)
termination_by e => sizeOf e

mutual
/-- `p` holds at every node of the result tree. -/
def allNodesB (p : FileInfo → Bool) : FileInfo → Bool
  | .mk n pa sz d cs => p (.mk n pa sz d cs) && allNodesListB p cs

def allNodesListB (p : FileInfo → Bool) : List FileInfo → Bool
  | [] => true
  | t :: r => allNodesB p t && allNodesListB p r
end

/-- Adjacent-pairs check that a children list is sorted by `size`
descending. -/
def sortedBySizeDesc : List FileInfo → Bool
  | [] => true
  | [_] => true
  | a :: b :: r => decide (FileInfo.size b ≤ FileInfo.size a) && sortedBySizeDesc (b :: r)

/-- Sum of the sizes of the retained children of a node. -/
def childSum (f : FileInfo) : Nat := (f.children.map FileInfo.size).sum

/-- Per-node property behind claim C8: directories keep their children
sorted by size descending; files have no children. -/
def sortedChildrenNode (f : FileInfo) : Bool :=
  if f.is_dir then sortedBySizeDesc f.children else f.children.isEmpty

/-- Per-node property behind claim C10: at most 50 retained children. -/
def capNode (f : FileInfo) : Bool := decide (f.children.length ≤ 50)

/-- Per-node property behind the amended claim C1: a directory's size is
at least the sum of its retained children's sizes, with equality whenever
fewer than 50 children were retained (i.e. whenever the top-50 truncation
certainly dropped nothing). -/
def sizeBoundNode (f : FileInfo) : Bool :=
  !f.is_dir ||
    (decide (childSum f ≤ f.size) &&
      (!decide (f.children.length < 50) || decide (f.size = childSum f)))

/-- Claim C1 exactly as stated: every directory's size equals the sum of
the retained children's sizes. -/
def sizeEqRetainedNode (f : FileInfo) : Bool :=
  !f.is_dir || decide (f.size = childSum f)

/-- Conjunction of the per-node tree invariants established in one pass. -/
def nodeInv (f : FileInfo) : Bool :=
  sizeBoundNode f && sortedChildrenNode f && capNode f

/-- Strong induction over `FileInfo`, recursing into children. -/
theorem fileInfoMemInd {P : FileInfo → Prop}
    (h : ∀ n pa sz d cs, (∀ c ∈ cs, P c) → P (.mk n pa sz d cs)) :
    ∀ t, P t
  | .mk n pa sz d cs =>
      h n pa sz d cs (fun c hc =>
        have : sizeOf c < sizeOf (FileInfo.mk n pa sz d cs) := by
          have h1 := List.sizeOf_lt_of_mem hc
          simp only [FileInfo.mk.sizeOf_spec]
          omega
        fileInfoMemInd h c)
termination_by t => sizeOf t

/-- Membership formulation of `allNodesListB`. -/
theorem allNodesListB_iff (p : FileInfo → Bool) :
    ∀ l : List FileInfo, allNodesListB p l = true ↔ ∀ t ∈ l, allNodesB p t = true := by
  intro l
  induction l with
  | nil => simp [allNodesListB]
  | cons t r ih => simp [allNodesListB, ih]

/-- A pointwise-weaker node predicate holds on all nodes whenever a
stronger one does. -/
theorem allNodesB_mono {p q : FileInfo → Bool}
    (hpq : ∀ f, p f = true → q f = true) :
    ∀ t, allNodesB p t = true → allNodesB q t = true := by
  intro t
  induction t using fileInfoMemInd with
  | h n pa sz d cs ih =>
      intro ht
      rw [allNodesB, Bool.and_eq_true, allNodesListB_iff] at ht ⊢
      exact ⟨hpq _ ht.1, fun c hc => ih c hc (ht.2 c hc)⟩

instance : IsTotal FileInfo sizeGE := ⟨fun a b => Nat.le_total b.size a.size⟩

instance : IsTrans FileInfo sizeGE :=
  ⟨fun _ _ _ hab hbc => Nat.le_trans hbc hab⟩

/-- A pairwise size-descending list passes the adjacent-pairs check. -/
theorem sortedBySizeDesc_of_pairwise :
    ∀ l : List FileInfo, l.Pairwise sizeGE → sortedBySizeDesc l = true := by
  intro l
  induction l with
  | nil => simp [sortedBySizeDesc]
  | cons a r ih =>
      intro h
      cases r with
      | nil => simp [sortedBySizeDesc]
      | cons b r2 =>
          rw [List.pairwise_cons] at h
          rw [sortedBySizeDesc, Bool.and_eq_true]
          refine ⟨by simpa [sizeGE] using h.1 b (by simp), ih h.2⟩

/-- The sum of a front segment of a `Nat` list is at most the full sum. -/
theorem sum_take_le (L : List Nat) (n : Nat) : (L.take n).sum ≤ L.sum := by
  conv_rhs => rw [← List.take_append_drop n L]
  rw [List.sum_append]
  exact Nat.le_add_right _ _

/-- Sorting the children permutes them, so the summed sizes agree. -/
theorem sum_insertionSort (l : List FileInfo) :
    ((l.insertionSort sizeGE).map FileInfo.size).sum = (l.map FileInfo.size).sum :=
  ((List.perm_insertionSort sizeGE l).map FileInfo.size).sum_eq

/-- Every tree in a `scanListAll` output arises from a `scanEntry` call
on one of the listed entries. -/
theorem scanListAll_mem (o : Nat → Bool) (p : String) :
    ∀ (l : List Entry) (s : ScanState) (t : FileInfo),
      t ∈ (scanListAll o p l s).1 →
      ∃ e ∈ l, ∃ p2 s2, (scanEntry o p2 e s2).1 = some t := by
  intro l
  induction l with
  | nil => simp [scanListAll]
  | cons e r ih =>
      intro s t ht
      rw [scanListAll] at ht
      cases hE : (scanEntry o (childPath p e.name) e s).1 with
      | some f =>
          simp only [hE] at ht
          rcases List.mem_cons.mp ht with rfl | ht2
          · exact ⟨e, by simp, _, _, hE⟩
          · obtain ⟨e2, he2, p2, s2, h2⟩ := ih _ _ ht2
            exact ⟨e2, by simp [he2], p2, s2, h2⟩
      | none =>
          simp only [hE] at ht
          obtain ⟨e2, he2, p2, s2, h2⟩ := ih _ _ ht
          exact ⟨e2, by simp [he2], p2, s2, h2⟩

/-- The byte counter grows by exactly the size of each produced subtree:
list version, assuming the entry-level property for the listed entries. -/
theorem scanListAll_totalSize (o : Nat → Bool) (p : String) :
    ∀ (l : List Entry) (s : ScanState),
      (∀ e ∈ l, ∀ (p2 : String) (s2 : ScanState),
          ((scanEntry o p2 e s2).2).totalSize
            = s2.totalSize + optSize (scanEntry o p2 e s2).1) →
      ((scanListAll o p l s).2).totalSize
        = s.totalSize + ((scanListAll o p l s).1.map FileInfo.size).sum := by
  intro l
  induction l with
  | nil => simp [scanListAll]
  | cons e r ih =>
      intro s hl
      have hhead := hl e (by simp) (childPath p e.name) s
      have ihr := ih ((scanEntry o (childPath p e.name) e s).2)
        (fun e2 he2 => hl e2 (by simp [he2]))
      simp only [scanListAll]
      cases hE : (scanEntry o (childPath p e.name) e s).1 with
      | some f =>
          simp only [hE]
          rw [ihr, hhead, hE]
          simp only [optSize, List.map_cons, List.sum_cons]
          omega
      | none =>
          simp only [hE]
          rw [ihr, hhead, hE]
          simp only [optSize]
          omega

/-- The byte counter grows by exactly the size of the produced node (0
when metadata was unreadable): the directory case sums all scanned
children before any truncation, so nothing is lost. -/
theorem scanEntry_totalSize (o : Nat → Bool) :
    ∀ (e : Entry) (p : String) (s : ScanState),
      ((scanEntry o p e s).2).totalSize = s.totalSize + optSize (scanEntry o p e s).1 := by
  intro e
  induction e using entryMemInd with
  | hfile n sz => intro p s; simp [scanEntry, optSize, FileInfo.size]
  | hbadE n => intro p s; simp [scanEntry, optSize]
  | hbadD n => intro p s; simp [scanEntry, optSize, FileInfo.size]
  | hdir n es ih =>
      intro p s
      simp only [scanEntry, optSize, FileInfo.size]
      rw [scanList_eq_take]
      exact scanListAll_totalSize o p _ s
        (fun e2 he2 => ih e2 (List.take_subset _ _ he2))

/-- On clean listings the scan is exhaustive and exact: list version. -/
theorem scanListAll_clean (o : Nat → Bool) (p : String) :
    ∀ (l : List Entry) (s : ScanState),
      cleanL l = true →
      (∀ e ∈ l, clean e = true → ∀ (p2 : String) (s2 : ScanState),
          (∃ t, (scanEntry o p2 e s2).1 = some t) ∧
          ((scanEntry o p2 e s2).2).totalFiles = s2.totalFiles + specFileCount e ∧
          ((scanEntry o p2 e s2).2).totalSize = s2.totalSize + specTotalBytes e ∧
          ((scanEntry o p2 e s2).2).errorCount = s2.errorCount) →
      ((scanListAll o p l s).2).totalFiles = s.totalFiles + specFileCountL l ∧
      ((scanListAll o p l s).2).totalSize = s.totalSize + specTotalBytesL l ∧
      ((scanListAll o p l s).2).errorCount = s.errorCount := by
  intro l
  induction l with
  | nil => simp [scanListAll, specFileCountL, specTotalBytesL]
  | cons e r ih =>
      intro s hcl hl
      rw [cleanL, Bool.and_eq_true] at hcl
      have hhead := hl e (by simp) hcl.1 (childPath p e.name) s
      have ihr := ih ((scanEntry o (childPath p e.name) e s).2) hcl.2
        (fun e2 he2 => hl e2 (by simp [he2]))
      simp only [scanListAll, specFileCountL, specTotalBytesL]
      refine ⟨?_, ?_, ?_⟩
      · rw [ihr.1, hhead.2.1]; omega
      · rw [ihr.2.1, hhead.2.2.1]; omega
      · rw [ihr.2.2, hhead.2.2.2]

/-- On a clean tree (claim C2's hypotheses) the scan returns a node and
counts exactly: `total_files` grows by the exact number of files,
`total_size` by the exact sum of file sizes, and the error counter is
untouched. -/
theorem scanEntry_clean (o : Nat → Bool) :
    ∀ (e : Entry), clean e = true → ∀ (p : String) (s : ScanState),
      (∃ t, (scanEntry o p e s).1 = some t) ∧
      ((scanEntry o p e s).2).totalFiles = s.totalFiles + specFileCount e ∧
      ((scanEntry o p e s).2).totalSize = s.totalSize + specTotalBytes e ∧
      ((scanEntry o p e s).2).errorCount = s.errorCount := by
  intro e
  induction e using entryMemInd with
  | hfile n sz =>
      intro _ p s
      simp [scanEntry, specFileCount, specTotalBytes]
  | hbadE n => intro hc p s; simp [clean] at hc
  | hbadD n => intro hc p s; simp [clean] at hc
  | hdir n es ih =>
      intro hc p s
      rw [clean, Bool.and_eq_true, decide_eq_true_iff] at hc
      have htake : es.take 500 = es := List.take_of_length_le hc.1
      have hlist := scanListAll_clean o p es s hc.2
        (fun e2 he2 => ih e2 he2)
      simp only [scanEntry, specFileCount, specTotalBytes]
      rw [scanList_eq_take, htake]
      exact ⟨⟨_, rfl⟩, hlist.1, hlist.2.1, hlist.2.2⟩

/-- The produced trees never depend on the incoming counter state (the
counters are only ever read to be increased): list version. -/
theorem scanListAll_fst_indep (o : Nat → Bool) (p : String) :
    ∀ (l : List Entry) (s s2 : ScanState),
      (∀ e ∈ l, ∀ (p3 : String) (s3 s4 : ScanState),
          (scanEntry o p3 e s3).1 = (scanEntry o p3 e s4).1) →
      (scanListAll o p l s).1 = (scanListAll o p l s2).1 := by
  intro l
  induction l with
  | nil => simp [scanListAll]
  | cons e r ih =>
      intro s s2 hl
      have hhead := hl e (by simp) (childPath p e.name) s s2
      have ihr := ih ((scanEntry o (childPath p e.name) e s).2)
        ((scanEntry o (childPath p e.name) e s2).2)
        (fun e2 he2 => hl e2 (by simp [he2]))
      simp only [scanListAll]
      rw [hhead, ihr]

/-- The produced tree never depends on the incoming counter state. -/
theorem scanEntry_fst_indep (o : Nat → Bool) :
    ∀ (e : Entry) (p : String) (s s2 : ScanState),
      (scanEntry o p e s).1 = (scanEntry o p e s2).1 := by
  intro e
  induction e using entryMemInd with
  | hfile n sz => intro p s s2; simp [scanEntry]
  | hbadE n => intro p s s2; simp [scanEntry]
  | hbadD n => intro p s s2; simp [scanEntry]
  | hdir n es ih =>
      intro p s s2
      simp only [scanEntry, Option.some.injEq, FileInfo.mk.injEq]
      simp only [scanList_eq_take]
      have := scanListAll_fst_indep o p (es.take 500) s s2
        (fun e2 he2 => ih e2 (List.take_subset _ _ he2))
      rw [this]
      simp

/-- Counter updates are pure accumulation: the deltas added by a scan do
not depend on the incoming counter values.  List version. -/
theorem scanListAll_shift (o : Nat → Bool) (p : String) :
    ∀ (l : List Entry) (s : ScanState),
      (∀ e ∈ l, ∀ (p2 : String) (s2 : ScanState),
          ((scanEntry o p2 e s2).2).totalFiles
              = s2.totalFiles + ((scanEntry o p2 e initState).2).totalFiles ∧
          ((scanEntry o p2 e s2).2).totalSize
              = s2.totalSize + ((scanEntry o p2 e initState).2).totalSize ∧
          ((scanEntry o p2 e s2).2).errorCount
              = s2.errorCount + ((scanEntry o p2 e initState).2).errorCount) →
      ((scanListAll o p l s).2).totalFiles
          = s.totalFiles + ((scanListAll o p l initState).2).totalFiles ∧
      ((scanListAll o p l s).2).totalSize
          = s.totalSize + ((scanListAll o p l initState).2).totalSize ∧
      ((scanListAll o p l s).2).errorCount
          = s.errorCount + ((scanListAll o p l initState).2).errorCount := by
  intro l
  induction l with
  | nil => simp [scanListAll, initState]
  | cons e r ih =>
      intro s hl
      have hhead := hl e (by simp) (childPath p e.name)
      have ihr := fun s3 => ih s3 (fun e2 he2 => hl e2 (by simp [he2]))
      simp only [scanListAll]
      have h1 := ihr ((scanEntry o (childPath p e.name) e s).2)
      have h2 := ihr ((scanEntry o (childPath p e.name) e initState).2)
      have h3 := hhead s
      have h4 := hhead initState
      refine ⟨?_, ?_, ?_⟩
      · rw [h1.1, h2.1, h3.1]; omega
      · rw [h1.2.1, h2.2.1, h3.2.1]; omega
      · rw [h1.2.2, h2.2.2, h3.2.2]; omega

/-- Counter updates are pure accumulation (entry version). -/
theorem scanEntry_shift (o : Nat → Bool) :
    ∀ (e : Entry) (p : String) (s : ScanState),
      ((scanEntry o p e s).2).totalFiles
          = s.totalFiles + ((scanEntry o p e initState).2).totalFiles ∧
      ((scanEntry o p e s).2).totalSize
          = s.totalSize + ((scanEntry o p e initState).2).totalSize ∧
      ((scanEntry o p e s).2).errorCount
          = s.errorCount + ((scanEntry o p e initState).2).errorCount := by
  intro e
  induction e using entryMemInd with
  | hfile n sz => intro p s; simp [scanEntry, initState]
  | hbadE n => intro p s; simp [scanEntry, initState]
  | hbadD n => intro p s; simp [scanEntry, initState]
  | hdir n es ih =>
      intro p s
      simp only [scanEntry]
      simp only [scanList_eq_take]
      exact scanListAll_shift o p _ s
        (fun e2 he2 => ih e2 (List.take_subset _ _ he2))

/-- Scanning a concatenated listing scans the front, then the back from
the front's final state. -/
theorem scanListAll_append (o : Nat → Bool) (p : String) :
    ∀ (l1 l2 : List Entry) (s : ScanState),
      scanListAll o p (l1 ++ l2) s
        = ((scanListAll o p l1 s).1
              ++ (scanListAll o p l2 (scanListAll o p l1 s).2).1,
           (scanListAll o p l2 (scanListAll o p l1 s).2).2) := by
  intro l1
  induction l1 with
  | nil => simp [scanListAll]
  | cons e r ih =>
      intro l2 s
      simp only [List.cons_append, scanListAll]
      cases hE : (scanEntry o (childPath p e.name) e s).1 with
      | some f => simp only [hE, List.append_eq]; rw [ih]; simp
      | none => simp only [hE, List.append_eq]; rw [ih]

/-- A listing of plain files is clean. -/
theorem cleanL_of_allFiles :
    ∀ l : List Entry, (∀ e ∈ l, isFileB e = true) → cleanL l = true := by
  intro l
  induction l with
  | nil => simp [cleanL]
  | cons e r ih =>
      intro h
      rw [cleanL, Bool.and_eq_true]
      refine ⟨?_, ih (fun e2 he2 => h e2 (by simp [he2]))⟩
      have he := h e (by simp)
      cases e with
      | file n sz => simp [clean]
      | badEntry n => simp [isFileB] at he
      | badDir n => simp [isFileB] at he
      | dir n es => simp [isFileB] at he

/-- A listing of plain files holds exactly one file per entry. -/
theorem specFileCountL_allFiles :
    ∀ l : List Entry, (∀ e ∈ l, isFileB e = true) → specFileCountL l = l.length := by
  intro l
  induction l with
  | nil => simp [specFileCountL]
  | cons e r ih =>
      intro h
      rw [specFileCountL, ih (fun e2 he2 => h e2 (by simp [he2]))]
      have he := h e (by simp)
      cases e with
      | file n sz => simp [specFileCount]; omega
      | badEntry n => simp [isFileB] at he
      | badDir n => simp [isFileB] at he
      | dir n es => simp [isFileB] at he

/-- A clean nesting chain with exactly `n` files in total: each level is
a small directory holding one 1-byte file and the next level. -/
def chainFs : Nat → Entry
  | 0 => .dir "d" []
  | n + 1 => .dir "d" [.file "f" 1, chainFs n]

theorem clean_chainFs : ∀ n, clean (chainFs n) = true := by
  intro n
  induction n with
  | zero => rfl
  | succ n ih => simp [chainFs, clean, cleanL, ih]

theorem specFileCount_chainFs : ∀ n, specFileCount (chainFs n) = n := by
  intro n
  induction n with
  | zero => rfl
  | succ n ih =>
      simp [chainFs, specFileCount, specFileCountL, ih]
      omega

/-- File count carried by a `scan_directory` outcome (0 on error). -/
def resultFileCount : Except String ScanResult → Nat
  | .ok r => r.file_count
  | .error _ => 0

/-- On a clean tree, `scan_directory_impl` succeeds with exact totals. -/
theorem scan_directory_impl_clean (o : Nat → Bool) (rp : String) (e : Entry)
    (hclean : clean e = true) :
    ∃ r, (scan_directory_impl o rp (some e)).1 = Except.ok r ∧
      r.total_size = specTotalBytes e ∧
      r.file_count = specFileCount e ∧
      r.error_count = 0 := by
  obtain ⟨⟨t, ht⟩, hf, hsz, herr⟩ := scanEntry_clean o e hclean rp initState
  rw [scan_directory_impl]
  rcases hE : scanEntry o rp e initState with ⟨fst, snd⟩
  rw [hE] at ht hf hsz herr
  simp only at ht hf hsz herr
  subst ht
  refine ⟨_, rfl, ?_, ?_, ?_⟩
  · simpa [initState] using hsz
  · simpa [initState] using hf
  · simpa [initState] using herr

/-- Master invariant: every node of every tree the scanner produces
satisfies `nodeInv` (size bound, sorted children, 50-child cap). -/
theorem scanEntry_inv (o : Nat → Bool) :
    ∀ (e : Entry) (p : String) (s : ScanState) (t : FileInfo),
      (scanEntry o p e s).1 = some t → allNodesB nodeInv t = true := by
  intro e
  induction e using entryMemInd with
  | hfile n sz =>
      intro p s t ht
      simp only [scanEntry, Option.some.injEq] at ht
      subst ht
      simp [allNodesB, allNodesListB, nodeInv, sizeBoundNode, sortedChildrenNode,
        capNode, childSum, FileInfo.is_dir, FileInfo.children, FileInfo.size,
        sortedBySizeDesc]
  | hbadE n =>
      intro p s t ht
      simp [scanEntry] at ht
  | hbadD n =>
      intro p s t ht
      simp only [scanEntry, Option.some.injEq] at ht
      subst ht
      simp [allNodesB, allNodesListB, nodeInv, sizeBoundNode, sortedChildrenNode,
        capNode, childSum, FileInfo.is_dir, FileInfo.children, FileInfo.size,
        sortedBySizeDesc]
  | hdir n es ih =>
      intro p s t ht
      simp only [scanEntry, Option.some.injEq] at ht
      subst ht
      rw [allNodesB, Bool.and_eq_true, allNodesListB_iff]
      set ch := (scanList o p 500 es s).1 with hch
      set tru := (ch.insertionSort sizeGE).take 50 with htru
      have hsum : (tru.map FileInfo.size).sum ≤ (ch.map FileInfo.size).sum := by
        rw [htru, List.map_take]
        calc (((ch.insertionSort sizeGE).map FileInfo.size).take 50).sum
            ≤ ((ch.insertionSort sizeGE).map FileInfo.size).sum := sum_take_le _ _
          _ = (ch.map FileInfo.size).sum := sum_insertionSort ch
      have heq : tru.length < 50 → (ch.map FileInfo.size).sum = (tru.map FileInfo.size).sum := by
        intro hlt
        have hlen : (ch.insertionSort sizeGE).length < 50 := by
          rw [htru, List.length_take] at hlt
          omega
        have hall : tru = ch.insertionSort sizeGE :=
          List.take_of_length_le (Nat.le_of_lt hlen)
        rw [hall, sum_insertionSort]
      have hpw : tru.Pairwise sizeGE :=
        (List.sorted_insertionSort sizeGE ch).sublist (List.take_sublist _ _)
      constructor
      · rw [nodeInv, Bool.and_eq_true, Bool.and_eq_true]
        refine ⟨⟨?_, ?_⟩, ?_⟩
        · rw [sizeBoundNode]
          simp only [FileInfo.is_dir, FileInfo.children, FileInfo.size, childSum]
          by_cases hl : tru.length < 50
          · simp [hsum, heq hl, hl]
          · simp [hsum, hl]
        · rw [sortedChildrenNode]
          simp only [FileInfo.is_dir, FileInfo.children, if_true]
          exact sortedBySizeDesc_of_pairwise _ hpw
        · rw [capNode]
          simp only [FileInfo.children, htru, List.length_take]
          simp
      · intro c hc
        have hc2 : c ∈ ch.insertionSort sizeGE := (List.take_sublist _ _).subset hc
        have hc3 : c ∈ ch := ((List.perm_insertionSort sizeGE ch).mem_iff).mp hc2
        rw [hch, scanList_eq_take] at hc3
        obtain ⟨e2, he2, p2, s2, hsc⟩ := scanListAll_mem o p _ _ _ hc3
        exact ih e2 (List.take_subset _ _ he2) p2 s2 c hsc

/-- C1 (as stated) is false of the code: `scan_directory_parallel`
computes a directory's size as the sum over all scanned children before
truncating to the top 50, so a directory of 51 one-byte files gets size
51 while its retained children sum to 50. -/
theorem C1_counterexample :
    ((scanEntry noEmit "/d" (Entry.dir "d" (List.replicate 51 (Entry.file "f" 1)))
        initState).1.map sizeEqRetainedNode) = some false ∧
    ((scanEntry noEmit "/d" (Entry.dir "d" (List.replicate 51 (Entry.file "f" 1)))
        initState).1.map FileInfo.size) = some 51 ∧
    ((scanEntry noEmit "/d" (Entry.dir "d" (List.replicate 51 (Entry.file "f" 1)))
        initState).1.map childSum) = some 50 := by
  refine ⟨?_, ?_, ?_⟩ <;> decide

/-- C1 amended: in every tree returned by the scanner, a directory
node's size is at least the sum of the retained children's sizes (it is
the sum over all scanned children, computed before truncation), with
equality whenever fewer than 50 children are retained. -/
theorem C1_size_vs_children (o : Nat → Bool) (p : String) (e : Entry)
    (s : ScanState) (t : FileInfo)
    (h : (scanEntry o p e s).1 = some t) :
    allNodesB sizeBoundNode t = true :=
  allNodesB_mono
    (fun f hf => by
      rw [nodeInv, Bool.and_eq_true, Bool.and_eq_true] at hf
      exact hf.1.1)
    t (scanEntry_inv o e p s t h)

theorem C1_size_vs_children_witness :
    (scanEntry noEmit "/r" (Entry.dir "r" [Entry.file "a" 3, Entry.file "b" 7])
        initState).1
      = some (FileInfo.mk "r" "/r" 10 true
          [FileInfo.mk "b" "/r/b" 7 false [], FileInfo.mk "a" "/r/a" 3 false []]) ∧
    allNodesB sizeBoundNode
      (FileInfo.mk "r" "/r" 10 true
          [FileInfo.mk "b" "/r/b" 7 false [], FileInfo.mk "a" "/r/a" 3 false []]) = true :=
  ⟨rfl, C1_size_vs_children noEmit "/r"
    (Entry.dir "r" [Entry.file "a" 3, Entry.file "b" 7]) initState _ rfl⟩

/-- C4: a missing root path yields the single error "Path does not
exist" with zero counters and no progress events: no scanning work is
performed. -/
theorem C4_missing_root (o : Nat → Bool) (rp : String) :
    scan_directory_impl o rp none
      = (Except.error "Path does not exist", ⟨0, 0, 0, []⟩) := rfl

/-- C5: a directory whose listing fails entirely still yields a valid
size-0, childless directory node (an `Ok`, not an error), and bumps the
error counter by exactly one. -/
theorem C5_unreadable_listing (o : Nat → Bool) (p name : String) (s : ScanState) :
    scanEntry o p (Entry.badDir name) s
      = (some (FileInfo.mk name p 0 true []),
         { s with errorCount := s.errorCount + 1 }) := rfl

/-- C8: in every returned tree, children sequences are sorted by size
descending, and file nodes have no children. -/
theorem C8_children_sorted (o : Nat → Bool) (p : String) (e : Entry)
    (s : ScanState) (t : FileInfo)
    (h : (scanEntry o p e s).1 = some t) :
    allNodesB sortedChildrenNode t = true :=
  allNodesB_mono
    (fun f hf => by
      rw [nodeInv, Bool.and_eq_true, Bool.and_eq_true] at hf
      exact hf.1.2)
    t (scanEntry_inv o e p s t h)

theorem C8_children_sorted_witness :
    (scanEntry noEmit "/r" (Entry.dir "r" [Entry.file "a" 3, Entry.file "b" 7])
        initState).1
      = some (FileInfo.mk "r" "/r" 10 true
          [FileInfo.mk "b" "/r/b" 7 false [], FileInfo.mk "a" "/r/a" 3 false []]) ∧
    allNodesB sortedChildrenNode
      (FileInfo.mk "r" "/r" 10 true
          [FileInfo.mk "b" "/r/b" 7 false [], FileInfo.mk "a" "/r/a" 3 false []]) = true :=
  ⟨rfl, C8_children_sorted noEmit "/r"
    (Entry.dir "r" [Entry.file "a" 3, Entry.file "b" 7]) initState _ rfl⟩

/-- C9: whenever a scan returns successfully, the summary `total_size`
equals the root node's `size` — each directory's size is summed over all
scanned children before truncation, so nothing counted is ever dropped
from the root's size.  (The claim's `error_count = 0` hypothesis is kept
although the equality holds regardless.) -/
theorem C9_total_size_eq_root (o : Nat → Bool) (rp : String) (e : Entry)
    (r : ScanResult)
    (hok : (scan_directory_impl o rp (some e)).1 = Except.ok r)
    (herr : r.error_count = 0) :
    r.total_size = r.root.size := by
  have hts := scanEntry_totalSize o e rp initState
  rw [scan_directory_impl] at hok
  rcases hE : scanEntry o rp e initState with ⟨fst, snd⟩
  rw [hE] at hok hts
  cases fst with
  | none => simp at hok
  | some root =>
      simp only [Except.ok.injEq] at hok
      subst hok
      simpa [initState, optSize] using hts

theorem C9_total_size_eq_root_witness :
    (scan_directory_impl noEmit "/a" (some (Entry.file "a" 5))).1
        = Except.ok ⟨FileInfo.mk "a" "/a" 5 false [], 5, 1, 0⟩ ∧
    (ScanResult.mk (FileInfo.mk "a" "/a" 5 false []) 5 1 0).error_count = 0 ∧
    (ScanResult.mk (FileInfo.mk "a" "/a" 5 false []) 5 1 0).total_size
        = (ScanResult.mk (FileInfo.mk "a" "/a" 5 false []) 5 1 0).root.size :=
  ⟨rfl, rfl, C9_total_size_eq_root noEmit "/a" (Entry.file "a" 5) _ rfl rfl⟩

/-- C10: every directory node retains at most 50 children, and the cap
is exactly 50: a directory of 51 files retains precisely 50 children. -/
theorem C10_child_cap :
    (∀ (o : Nat → Bool) (p : String) (e : Entry) (s : ScanState) (t : FileInfo),
        (scanEntry o p e s).1 = some t → allNodesB capNode t = true) ∧
    ((scanEntry noEmit "/d" (Entry.dir "d" (List.replicate 51 (Entry.file "f" 1)))
        initState).1.map (fun t => t.children.length)) = some 50 := by
  constructor
  · intro o p e s t h
    exact allNodesB_mono
      (fun f hf => by
        rw [nodeInv, Bool.and_eq_true, Bool.and_eq_true] at hf
        exact hf.2)
      t (scanEntry_inv o e p s t h)
  · decide

theorem C10_child_cap_witness :
    (scanEntry noEmit "/r" (Entry.dir "r" [Entry.file "a" 3]) initState).1
        = some (FileInfo.mk "r" "/r" 3 true [FileInfo.mk "a" "/r/a" 3 false []]) ∧
    allNodesB capNode
      (FileInfo.mk "r" "/r" 3 true [FileInfo.mk "a" "/r/a" 3 false []]) = true :=
  ⟨rfl, C10_child_cap.1 noEmit "/r" (Entry.dir "r" [Entry.file "a" 3]) initState _ rfl⟩

/-- C2: for a tree with no unreadable entries and at most 500 entries
per directory, the scan succeeds with `total_size` the exact sum of all
file sizes and `file_count` the exact number of files.  (The code has no
global file-count, depth or time ceiling, so the claim's remaining
hypotheses constrain nothing.) -/
theorem C2_exact_totals (o : Nat → Bool) (rp : String) (e : Entry)
    (hclean : clean e = true) :
    ∃ r, (scan_directory_impl o rp (some e)).1 = Except.ok r ∧
      r.total_size = specTotalBytes e ∧
      r.file_count = specFileCount e ∧
      r.error_count = 0 :=
  scan_directory_impl_clean o rp e hclean

theorem C2_exact_totals_witness :
    clean (Entry.dir "r" [Entry.file "a" 100, Entry.dir "b" [Entry.file "c" 50]]) = true ∧
    ∃ r, (scan_directory_impl noEmit "/r"
        (some (Entry.dir "r" [Entry.file "a" 100, Entry.dir "b" [Entry.file "c" 50]]))).1
          = Except.ok r ∧
      r.total_size
          = specTotalBytes (Entry.dir "r" [Entry.file "a" 100, Entry.dir "b" [Entry.file "c" 50]]) ∧
      r.file_count
          = specFileCount (Entry.dir "r" [Entry.file "a" 100, Entry.dir "b" [Entry.file "c" 50]]) ∧
      r.error_count = 0 :=
  ⟨by decide,
   C2_exact_totals noEmit "/r"
     (Entry.dir "r" [Entry.file "a" 100, Entry.dir "b" [Entry.file "c" 50]]) (by decide)⟩

/-- C3 (as stated) is false of the code: `scan_start_time` is created
but never consulted and the cumulative file count is never compared
against any bound, so there is no global file-count ceiling beyond which
the scan stops counting — clean chains of every size are counted in
full. -/
theorem C3_counterexample :
    ¬ ∃ F : Nat, ∀ n : Nat,
        resultFileCount (scan_directory_impl noEmit "/d" (some (chainFs n))).1 ≤ F := by
  rintro ⟨F, hF⟩
  obtain ⟨r, hok, _, hfc, _⟩ :=
    scan_directory_impl_clean noEmit "/d" (chainFs (F + 1)) (clean_chainFs (F + 1))
  have h1 := hF (F + 1)
  rw [hok] at h1
  rw [resultFileCount, hfc, specFileCount_chainFs] at h1
  omega

/-- C3 amended: the code has no global file-count or elapsed-time
ceiling; the only enumeration bound is the per-directory 500-entry cap,
and no truncation or local degradation ever turns the scan of a statable
root into an error — the result is always a normal successful
`ScanResult`. -/
theorem C3_truncation_not_error (o : Nat → Bool) (rp : String) (e : Entry)
    (h : rootStatOk e = true) :
    ∃ r, (scan_directory_impl o rp (some e)).1 = Except.ok r := by
  cases e with
  | badEntry n => rw [rootStatOk] at h; exact absurd h (by simp)
  | file n sz => exact ⟨_, rfl⟩
  | badDir n => exact ⟨_, rfl⟩
  | dir n es => exact ⟨_, rfl⟩

theorem C3_truncation_not_error_witness :
    rootStatOk (Entry.dir "d" [Entry.badDir "x"]) = true ∧
    ∃ r, (scan_directory_impl noEmit "/d" (some (Entry.dir "d" [Entry.badDir "x"]))).1
        = Except.ok r :=
  ⟨by decide,
   C3_truncation_not_error noEmit "/d" (Entry.dir "d" [Entry.badDir "x"]) (by decide)⟩

/-- C6: an entry whose metadata cannot be read is dropped from its
parent's children, the error counter grows by exactly one, and the
sibling subtrees are scanned to identical trees with identical file and
byte counters (sizes of siblings unaffected). -/
theorem C6_unreadable_entry_skipped (o : Nat → Bool) (p n name : String)
    (l1 l2 : List Entry) (s : ScanState)
    (hlen : l1.length + l2.length < 500) :
    (scanEntry o p (Entry.dir n (l1 ++ Entry.badEntry name :: l2)) s).1
        = (scanEntry o p (Entry.dir n (l1 ++ l2)) s).1 ∧
    ((scanEntry o p (Entry.dir n (l1 ++ Entry.badEntry name :: l2)) s).2).totalFiles
        = ((scanEntry o p (Entry.dir n (l1 ++ l2)) s).2).totalFiles ∧
    ((scanEntry o p (Entry.dir n (l1 ++ Entry.badEntry name :: l2)) s).2).totalSize
        = ((scanEntry o p (Entry.dir n (l1 ++ l2)) s).2).totalSize ∧
    ((scanEntry o p (Entry.dir n (l1 ++ Entry.badEntry name :: l2)) s).2).errorCount
        = ((scanEntry o p (Entry.dir n (l1 ++ l2)) s).2).errorCount + 1 := by
  have hlen1 : (l1 ++ Entry.badEntry name :: l2).length ≤ 500 := by
    simp only [List.length_append, List.length_cons]; omega
  have hlen2 : (l1 ++ l2).length ≤ 500 := by
    simp only [List.length_append]; omega
  simp only [scanEntry, scanList_eq_take]
  rw [List.take_of_length_le hlen1, List.take_of_length_le hlen2]
  rw [scanListAll_append, scanListAll_append]
  simp only [scanListAll, scanEntry, Entry.name]
  set s1 := (scanListAll o p l1 s).2 with hs1
  have hfst := scanListAll_fst_indep o p l2
    { s1 with errorCount := s1.errorCount + 1 } s1
    (fun e2 _ p3 s3 s4 => scanEntry_fst_indep o e2 p3 s3 s4)
  have hsh1 := scanListAll_shift o p l2 { s1 with errorCount := s1.errorCount + 1 }
    (fun e2 _ p2 s2 => scanEntry_shift o e2 p2 s2)
  have hsh2 := scanListAll_shift o p l2 s1
    (fun e2 _ p2 s2 => scanEntry_shift o e2 p2 s2)
  refine ⟨?_, ?_, ?_, ?_⟩
  · rw [hfst]
  · rw [hsh1.1, hsh2.1]
  · rw [hsh1.2.1, hsh2.2.1]
  · rw [hsh1.2.2, hsh2.2.2]
    simp only [ScanState.errorCount]
    omega

theorem C6_unreadable_entry_skipped_witness :
    ([Entry.file "a" 3].length + [Entry.file "b" 7].length < 500) ∧
    ((scanEntry noEmit "/d" (Entry.dir "d"
        ([Entry.file "a" 3] ++ Entry.badEntry "x" :: [Entry.file "b" 7])) initState).1
        = (scanEntry noEmit "/d" (Entry.dir "d"
            ([Entry.file "a" 3] ++ [Entry.file "b" 7])) initState).1 ∧
    ((scanEntry noEmit "/d" (Entry.dir "d"
        ([Entry.file "a" 3] ++ Entry.badEntry "x" :: [Entry.file "b" 7])) initState).2).totalFiles
        = ((scanEntry noEmit "/d" (Entry.dir "d"
            ([Entry.file "a" 3] ++ [Entry.file "b" 7])) initState).2).totalFiles ∧
    ((scanEntry noEmit "/d" (Entry.dir "d"
        ([Entry.file "a" 3] ++ Entry.badEntry "x" :: [Entry.file "b" 7])) initState).2).totalSize
        = ((scanEntry noEmit "/d" (Entry.dir "d"
            ([Entry.file "a" 3] ++ [Entry.file "b" 7])) initState).2).totalSize ∧
    ((scanEntry noEmit "/d" (Entry.dir "d"
        ([Entry.file "a" 3] ++ Entry.badEntry "x" :: [Entry.file "b" 7])) initState).2).errorCount
        = ((scanEntry noEmit "/d" (Entry.dir "d"
            ([Entry.file "a" 3] ++ [Entry.file "b" 7])) initState).2).errorCount + 1) :=
  ⟨by decide,
   C6_unreadable_entry_skipped noEmit "/d" "d" "x"
     [Entry.file "a" 3] [Entry.file "b" 7] initState (by decide)⟩

/-- C7: a directory is scanned exactly as if its listing were cut to its
first 500 entries — the remainder is silently dropped (same tree, same
counters, no error recorded) — and when the entries are plain files the
file counter grows by exactly the number of visited entries,
`min 500 (number of entries)`. -/
theorem C7_per_directory_cap (o : Nat → Bool) (p n : String) (l : List Entry)
    (s : ScanState) :
    scanEntry o p (Entry.dir n l) s = scanEntry o p (Entry.dir n (l.take 500)) s ∧
    ((∀ e ∈ l, isFileB e = true) →
      ((scanEntry o p (Entry.dir n l) s).2).totalFiles
          = s.totalFiles + min 500 l.length ∧
      ((scanEntry o p (Entry.dir n l) s).2).errorCount = s.errorCount) := by
  constructor
  · simp only [scanEntry, scanList_eq_take, List.take_take]
    simp
  · intro hf
    have hf500 : ∀ e ∈ l.take 500, isFileB e = true :=
      fun e he => hf e (List.take_subset _ _ he)
    have hclean := cleanL_of_allFiles _ hf500
    have hcount := specFileCountL_allFiles _ hf500
    have hlist := scanListAll_clean o p (l.take 500) s hclean
      (fun e2 _ hc p2 s2 => scanEntry_clean o e2 hc p2 s2)
    simp only [scanEntry, scanList_eq_take]
    refine ⟨?_, hlist.2.2⟩
    rw [hlist.1, hcount, List.length_take]

set_option maxRecDepth 4000 in
theorem C7_per_directory_cap_witness :
    (∀ e ∈ List.replicate 501 (Entry.file "f" 1), isFileB e = true) ∧
    scanEntry noEmit "/d" (Entry.dir "d" (List.replicate 501 (Entry.file "f" 1))) initState
      = scanEntry noEmit "/d"
          (Entry.dir "d" ((List.replicate 501 (Entry.file "f" 1)).take 500)) initState ∧
    ((scanEntry noEmit "/d" (Entry.dir "d" (List.replicate 501 (Entry.file "f" 1)))
        initState).2).totalFiles
      = initState.totalFiles + min 500 (List.replicate 501 (Entry.file "f" 1)).length ∧
    ((scanEntry noEmit "/d" (Entry.dir "d" (List.replicate 501 (Entry.file "f" 1)))
        initState).2).errorCount = initState.errorCount :=
  ⟨by decide,
   (C7_per_directory_cap noEmit "/d" "d" (List.replicate 501 (Entry.file "f" 1)) initState).1,
   ((C7_per_directory_cap noEmit "/d" "d" (List.replicate 501 (Entry.file "f" 1)) initState).2
      (by decide)).1,
   ((C7_per_directory_cap noEmit "/d" "d" (List.replicate 501 (Entry.file "f" 1)) initState).2
      (by decide)).2⟩
